import Mathlib

/-!
Verification of the `python-cbeta` repository against its specification.

The development shallowly embeds the two source files:
  * `lib/utils/remove_namespace.py`  (function `remove_namespace`)
  * `lib/cbeta_missing/cbeta_missing_character.py`  (class `CbetaMissingCharacter`)

Python strings are `String` (sliced by characters, as Python does), Python
dicts are ordered association lists (`List (K × V)`) with insert-or-overwrite
assignment, XML element trees (lxml `Element`s after parsing) are the mutual
inductive `XElem`/`XElems`, raised Python exceptions are the `PyErr` channel,
and an element's `.text` (which lxml types as `str` or `None`) is `Option
String`.  All definitions are executable, and the translation follows the
Python source line by line; where the source line would raise in Python the
embedding returns the corresponding `PyErr` value.
-/

/-! ### Python primitives -/

/-- Exceptions that the embedded code can raise. -/
inductive PyErr where
  | ioError
  | xmlSyntaxError
  | keyError (key : String)
  | attributeError
  | typeError
  | valueError
deriving DecidableEq

/-- The value of an lxml `.text` field or of a record entry: a Python string
or `None`. -/
abbrev PyVal := Option String

/-- One record of the missing-character table: a Python dict from field name
to value, kept as an ordered association list. -/
abbrev Record := List (String × PyVal)

/-- The missing-character table `self.missing_dict`: identifier to record. -/
abbrev Dict := List (String × Record)

/-- Python `k in d` for a dict modelled as an association list. -/
def containsKey {K V : Type} [DecidableEq K] (d : List (K × V)) (k : K) : Bool :=
  d.any (fun p => p.1 = k)

/-- Python `d[k]` read access, `none` when the key is absent (the caller
decides whether that is a `KeyError`). -/
def dictGet? {K V : Type} [DecidableEq K] (d : List (K × V)) (k : K) : Option V :=
  (d.find? (fun p => p.1 = k)).map Prod.snd

/-- Python `d[k] = v`: overwrite in place when the key exists (keeping its
position, as Python dicts do), otherwise append at the end. -/
def dictSet {K V : Type} [DecidableEq K] (d : List (K × V)) (k : K) (v : V) : List (K × V) :=
  if containsKey d k then d.map (fun p => if p.1 = k then (k, v) else p) else d ++ [(k, v)]

/-- Python `s.startswith(p)`; by characters, which is how Python compares. -/
def strStartsWith (s p : String) : Bool := p.data.isPrefixOf s.data

/-- Python `s[n:]` (character slicing). -/
def strDrop (s : String) (n : Nat) : String := String.mk (s.data.drop n)

/-- Python `s[2:-1]`: drop a fixed 2-character head and 1-character tail,
never raising (short strings give `""`, exactly as Python slicing does). -/
def pySlice2m1 (s : String) : String := String.mk ((s.data.drop 2).dropLast)

/-- Python `s.strip()` of surrounding whitespace, used by `int(...)`. -/
def pyTrim (s : String) : String :=
  String.mk (((s.data.dropWhile Char.isWhitespace).reverse.dropWhile Char.isWhitespace).reverse)

/-- Value of a string of decimal digits. -/
def decimalValue (cs : List Char) : Nat :=
  cs.foldl (fun a c => a * 10 + (c.toNat - 48)) 0

/-- Python `int(s)` with the default base 10: optional surrounding
whitespace, an optional sign, then decimal digits only; anything else raises
`ValueError`, hence `none`.  (Digit-group underscores and non-ASCII decimal
digits, which Python also accepts, never occur in this development and are
not modelled.) -/
def pyInt? (s : String) : Option Int :=
  let t := (pyTrim s).data
  let (sign, digits) : Int × List Char :=
    match t with
    | '-' :: rest => (-1, rest)
    | '+' :: rest => (1, rest)
    | _ => (1, t)
  if digits ≠ [] ∧ digits.all Char.isDigit then some (sign * (decimalValue digits : Int))
  else none

/-- Python `chr(n)`: defined for `0 ≤ n < 0x110000`, `ValueError` outside.
Python additionally accepts surrogate code points, which a Lean `Char`
cannot carry; they are mapped to `none` here and are never reached by any
input considered in this development. -/
def pyChr? (n : Int) : Option Char :=
  if 0 ≤ n ∧ n < 1114112 ∧ (n < 55296 ∨ 57343 < n) then some (Char.ofNat n.toNat)
  else none

/-! ### XML element trees

lxml elements after parsing: a tag, an ordered attribute dict (attribute
values are always strings), an optional text payload and a list of child
elements.  A mutual inductive is used so that all functions below are
structurally recursive and reduce inside the kernel. -/

mutual
inductive XElem where
  | mk (tag : String) (attrib : List (String × String)) (text : Option String)
      (children : XElems)
deriving DecidableEq
inductive XElems where
  | nil
  | cons (head : XElem) (tail : XElems)
deriving DecidableEq
end

def XElem.tag : XElem → String
  | .mk t _ _ _ => t

def XElem.attrib : XElem → List (String × String)
  | .mk _ a _ _ => a

def XElem.text : XElem → Option String
  | .mk _ _ x _ => x

def XElem.children : XElem → XElems
  | .mk _ _ _ cs => cs

def XElems.toList : XElems → List XElem
  | .nil => []
  | .cons c cs => c :: cs.toList

def XElems.ofList : List XElem → XElems
  | [] => .nil
  | c :: cs => .cons c (XElems.ofList cs)

mutual
/-- All nodes of the tree in document order, the node itself first; this is
lxml `doc.getiterator()` restricted to proper elements. -/
def allNodes : XElem → List XElem
  | .mk t a x cs => .mk t a x cs :: allNodesList cs
def allNodesList : XElems → List XElem
  | .nil => []
  | .cons c cs => allNodes c ++ allNodesList cs
end

/-! ### `lib/utils/remove_namespace.py` -/

/-- The hardcoded reserved namespace of `remove_namespace`:
`default_namespace = '\x7bhttp://www.w3.org/XML/1998/namespace\x7d'`. -/
def XML_NS : String := "\x7bhttp://www.w3.org/XML/1998/namespace\x7d"

/-- The attribute loop of `remove_namespace` for a single element:

```python
for attribute in element.attrib:
    if attribute.startswith(default_namespace):
        element.attrib[attribute[default_namespace_length:]] = \
            element.attrib.pop(attribute)
```

lxml's `_Attrib.__iter__` collects the keys into a fresh list before the
loop starts, so the iteration is over the original key list `ks` while the
dict `d` is popped and assigned underneath it. -/
def stripAttrsGo : List String → List (String × String) → List (String × String)
  | [], d => d
  | k :: ks, d =>
    if strStartsWith k XML_NS then
      match d.find? (fun p => p.1 = k) with
      | some p =>
        stripAttrsGo ks (dictSet (d.filter (fun q => q.1 ≠ k)) (strDrop k XML_NS.length) p.2)
      | none =>
        -- unreachable: every collected key stays present until its own
        -- iteration, since `pop` only removes the key being processed
        stripAttrsGo ks d
    else stripAttrsGo ks d

def stripAttrs (d : List (String × String)) : List (String × String) :=
  stripAttrsGo (d.map Prod.fst) d

/-- The tag rewrite of `remove_namespace` for a single element, `nsb` being
the already-braced `new_namespace` string:

```python
if element.tag.startswith(new_namespace):
    element.tag = element.tag[new_namespace_length:]
``` -/
def stripTag (nsb : String) (t : String) : String :=
  if strStartsWith t nsb then strDrop t nsb.length else t

mutual
/-- `remove_namespace`'s `for element in doc.getiterator()` body applied to
every node of the tree; the rewrite is purely local per node. -/
def removeNsElem (nsb : String) : XElem → XElem
  | .mk t a x cs => .mk (stripTag nsb t) (stripAttrs a) x (removeNsList nsb cs)
def removeNsList (nsb : String) : XElems → XElems
  | .nil => .nil
  | .cons c cs => .cons (removeNsElem nsb c) (removeNsList nsb cs)
end

/-- `remove_namespace(doc, namespace)`: builds
`new_namespace = u'\x7b%s\x7d' % namespace` and rewrites every node. -/
def remove_namespace (doc : XElem) (ns : String) : XElem :=
  removeNsElem ("\x7b" ++ ns ++ "\x7d") doc

/-! ### `CbetaMissingCharacter.extract_char` -/

/-- The class constant `FIELD_MAPPING`. -/
def FIELD_MAPPING : List (String × String) :=
  [("big5", "big5"),
   ("Character in the Siddham font", "char_in_siddham_font"),
   ("composition", "zzs"),
   ("normalized form", "normal"),
   ("rjchar", "rjchar"),
   ("Romanized form in CBETA transcription", "roman_cbeta"),
   ("Romanized form in Unicode transcription", "roman")]

/-- The local variable `type_to_store = ('normal_unicode', 'unicode')`. -/
def TYPE_TO_STORE : List String := ["normal_unicode", "unicode"]

/-- Python `char.findall('./t')`: the direct children with the given tag. -/
def childrenWithTag (e : XElem) (t : String) : List XElem :=
  e.children.toList.filter (fun c => c.tag = t)

/-- Python `element.find('./t')`: first child with the given tag, or `None`. -/
def findChild (e : XElem) (t : String) : Option XElem :=
  e.children.toList.find? (fun c => c.tag = t)

/-- Python `element.find('./t').text`: when `find` returned `None`, taking
`.text` raises `AttributeError`. -/
def textOfChild (e : XElem) (t : String) : Except PyErr PyVal :=
  match findChild e t with
  | none => .error .attributeError
  | some c => .ok c.text

/-- One iteration of the `charProp` loop of `extract_char`:

```python
local_name = element.find('./localName').text
value = element.find('./value').text
if local_name in self.FIELD_MAPPING:
    key = self.FIELD_MAPPING[local_name]
    res[key] = value
else:
    self.LOGGER.info(...)  # unmapped property: dropped and logged
```

A `None` text is never a key of `FIELD_MAPPING`, so it falls into the
logged-and-dropped branch, exactly as in Python. -/
def charPropStep (res : Record) (element : XElem) : Except PyErr Record :=
  match textOfChild element "localName" with
  | .error e => .error e
  | .ok local_name =>
    match textOfChild element "value" with
    | .error e => .error e
    | .ok value =>
      match local_name with
      | some ln =>
        match dictGet? FIELD_MAPPING ln with
        | some key => .ok (dictSet res key value)
        | none => .ok res
      | none => .ok res

/-- One iteration of the `mapping` loop of `extract_char`:

```python
mapping_type = element.attrib['type']
if mapping_type in type_to_store:
    unicode = element.text[2:-1]
    res[mapping_type] = unicode
    if mapping_type == 'unicode':
        res['unicode-char'] = chr(int(unicode))
```

Note the source calls `int(unicode)` without a base argument, so the stored
hex string is parsed as a decimal number; `element.text` being `None` makes
the slice raise `TypeError`, and a missing `type` attribute raises
`KeyError`. -/
def mappingStep (res : Record) (element : XElem) : Except PyErr Record :=
  match dictGet? element.attrib "type" with
  | none => .error (.keyError "type")
  | some mapping_type =>
    if mapping_type ∈ TYPE_TO_STORE then
      match element.text with
      | none => .error .typeError
      | some txt =>
        let unicode := pySlice2m1 txt
        let res1 := dictSet res mapping_type (some unicode)
        if mapping_type = "unicode" then
          match pyInt? unicode with
          | none => .error .valueError
          | some n =>
            match pyChr? n with
            | none => .error .valueError
            | some c => .ok (dictSet res1 "unicode-char" (some (Char.toString c)))
        else .ok res1
    else .ok res

/-- A Python `for` loop over a list threading an accumulator, stopping at
the first raised exception. -/
def foldExcept {α σ : Type} (f : σ → α → Except PyErr σ) : σ → List α → Except PyErr σ
  | s, [] => .ok s
  | s, a :: l =>
    match f s a with
    | .error e => .error e
    | .ok s' => foldExcept f s' l

/-- `CbetaMissingCharacter.extract_char(char)`.  The identifier is read
first (`char_id = char.attrib['id']`, a `KeyError` when absent), then the
`charProp` loop runs, then the `mapping` loop. -/
def extract_char (char : XElem) : Except PyErr Record :=
  match dictGet? char.attrib "id" with
  | none => .error (.keyError "id")
  | some _char_id =>
    match foldExcept charPropStep ([] : Record) (childrenWithTag char "charProp") with
    | .error e => .error e
    | .ok res => foldExcept mappingStep res (childrenWithTag char "mapping")

/-! ### `CbetaMissingCharacter.update_from_p5_file` -/

/-- A log line emitted through `self.LOGGER`. -/
inductive LogEvent where
  | info (msg : String)
  | error (msg : String)
deriving DecidableEq

def LogEvent.isError : LogEvent → Bool
  | .info _ => false
  | .error _ => true

/-- A successfully parsed document: its root element and the default
namespace of the root's `nsmap` (the entry under the key `None`), when one
is declared. -/
structure XDoc where
  root : XElem
  defaultNs : Option String
deriving DecidableEq

/-- Outcome of one document scan: emitted log, the table after the call and
the exception that propagated to the caller, if any. -/
structure ScanResult where
  log : List LogEvent
  missing_dict : Dict
  raised : Option PyErr
deriving DecidableEq

/-- The line `namespace = '' if None not in root.nsmap else
'\x7b' + root.nsmap[None] + '\x7d'`. -/
def nsArgOf (doc : XDoc) : String :=
  match doc.defaultNs with
  | none => ""
  | some uri => "\x7b" ++ uri ++ "\x7d"

/-- `CbetaMissingCharacter.update_from_p5_file(filename)`.

The file system is abstracted by `parsed`, the outcome of
`etree.parse(filename)`: `.error .ioError` when the file cannot be opened,
`.error .xmlSyntaxError` when it cannot be parsed, `.ok doc` otherwise.
The source catches `IOError` only, logging and re-raising it; any other
parse exception propagates uncaught and unlogged.

After a successful parse the source runs `remove_namespace` and then
evaluates `doc.finall('//charDecl/char')` — but `finall` is not a method of
an lxml `ElementTree` (a typo for `findall`), so this attribute access
raises `AttributeError` before the loop body can run, and the table is
never touched. -/
def update_from_p5_file (filename : String) (parsed : Except PyErr XDoc)
    (missing_dict : Dict) : ScanResult :=
  let log0 := [LogEvent.info ("Read Cbeta P5 file " ++ filename)]
  match parsed with
  | .error e =>
    if e = PyErr.ioError then
      { log := log0 ++ [LogEvent.error ("open file error, filename=" ++ filename)],
        missing_dict := missing_dict, raised := some e }
    else
      { log := log0, missing_dict := missing_dict, raised := some e }
  | .ok doc =>
    let _stripped := remove_namespace doc.root (nsArgOf doc)
    { log := log0, missing_dict := missing_dict, raised := some PyErr.attributeError }

/-- lxml `doc.findall('//charDecl/char')`: the tree-level `findall` turns
the absolute path into `'.//charDecl/char'`, i.e. every `charDecl` proper
descendant of the root, then each of their `char` children, in document
order. -/
def findall_charDecl_char (root : XElem) : List XElem :=
  (((allNodesList root.children).filter (fun n => n.tag = "charDecl")).map
    (fun n => n.children.toList.filter (fun c => c.tag = "char"))).flatten

/-- The body of the scan loop

```python
for element in doc.findall('//charDecl/char'):
    self.missing_dict[element.attrib['id']] = self.extract_char(element)
```

(the assignment's right-hand side is evaluated before the subscript
target, as Python does). -/
def scanChars : List XElem → Dict → Dict × Option PyErr
  | [], d => (d, none)
  | el :: rest, d =>
    match extract_char el with
    | .error e => (d, some e)
    | .ok res =>
      match dictGet? el.attrib "id" with
      | none => (d, some (PyErr.keyError "id"))
      | some cid => scanChars rest (dictSet d cid res)

/-- The variant of `update_from_p5_file` with the `finall` typo corrected to
`findall`, used to analyse what the scan would do past the typo. -/
def update_from_p5_file_findall (filename : String) (parsed : Except PyErr XDoc)
    (missing_dict : Dict) : ScanResult :=
  let log0 := [LogEvent.info ("Read Cbeta P5 file " ++ filename)]
  match parsed with
  | .error e =>
    if e = PyErr.ioError then
      { log := log0 ++ [LogEvent.error ("open file error, filename=" ++ filename)],
        missing_dict := missing_dict, raised := some e }
    else
      { log := log0, missing_dict := missing_dict, raised := some e }
  | .ok doc =>
    let stripped := remove_namespace doc.root (nsArgOf doc)
    let outcome := scanChars (findall_charDecl_char stripped) missing_dict
    { log := log0, missing_dict := outcome.1, raised := outcome.2 }

/-! ### `CbetaMissingCharacter.update_from_p5_folder` -/

/-- One item yielded by `os.walk(folder)`: the `(dirpath, dirnames,
filenames)` triple. -/
abbrev WalkEntry := String × List String × List String

/-- `os.path.join(folder, file)` where `file` is the 3-tuple yielded by
`os.walk`: `os.path.join` requires its components to be `str` (or bytes or
path-like), so joining with a tuple raises `TypeError` unconditionally. -/
def osPathJoinWithEntry (_folder : String) (_entry : WalkEntry) : PyErr :=
  PyErr.typeError

/-- `CbetaMissingCharacter.update_from_p5_folder(folder)`:

```python
for file in os.walk(folder):
    path = os.path.join(folder, file)
    ...
```

`os.walk` yields triples, so the very first iteration raises `TypeError`
at the join; on a non-existent folder `os.walk` yields nothing and the loop
body never runs. -/
def update_from_p5_folder (folder : String) (walk : List WalkEntry)
    (missing_dict : Dict) : Dict × Option PyErr :=
  match walk with
  | [] => (missing_dict, none)
  | entry :: _rest => (missing_dict, some (osPathJoinWithEntry folder entry))

/-! ### `CbetaMissingCharacter.get` and `create_zzs_code_lookup` -/

namespace CbetaMissingCharacter

/-- `CbetaMissingCharacter.get(cb_code)`:

```python
if cb_code in self.missing_dict:
    return self.missing_dict[cb_code]
else:
    return None
``` -/
def get (missing_dict : Dict) (cb_code : String) : Option Record :=
  if containsKey missing_dict cb_code then dictGet? missing_dict cb_code else none

end CbetaMissingCharacter

/-- The loop body of `create_zzs_code_lookup`:

```python
if 'zzs' in value:
    self.zzs_code[value['zzs']] = key
```

The reverse-index keys are record values, i.e. `PyVal`. -/
def zzsStep (zzs_code : List (PyVal × String)) (kv : String × Record) :
    List (PyVal × String) :=
  match dictGet? kv.2 "zzs" with
  | some v => dictSet zzs_code v kv.1
  | none => zzs_code

/-- `CbetaMissingCharacter.create_zzs_code_lookup()`, starting from the
fresh `self.zzs_code = dict()` set up by `__init__`. -/
def create_zzs_code_lookup (missing_dict : Dict) : List (PyVal × String) :=
  missing_dict.foldl zzsStep []

/-- The controlled key vocabulary of an extracted record: the values of
`FIELD_MAPPING` together with the two stored mapping types and the derived
`unicode-char` field. -/
def ALLOWED_KEYS : List String :=
  FIELD_MAPPING.map Prod.snd ++ ["normal_unicode", "unicode", "unicode-char"]

instance {ε α : Type} [DecidableEq ε] [DecidableEq α] : DecidableEq (Except ε α) := fun a b =>
  match a, b with
  | .ok x, .ok y => decidable_of_iff (x = y) (by simp)
  | .error x, .error y => decidable_of_iff (x = y) (by simp)
  | .ok _, .error _ => isFalse (by simp)
  | .error _, .ok _ => isFalse (by simp)

/-! ### Generic dictionary lemmas -/

theorem containsKey_false_iff {K V : Type} [DecidableEq K] (d : List (K × V)) (k : K) :
    containsKey d k = false ↔ dictGet? d k = none := by
  simp [containsKey, dictGet?, List.any_eq_false, List.find?_eq_none]

theorem find?_key_of_nodup {K V : Type} [DecidableEq K] :
    ∀ (d : List (K × V)) (k : K) (r : V), (d.map Prod.fst).Nodup → (k, r) ∈ d →
      d.find? (fun p => p.1 = k) = some (k, r) := by
  intro d
  induction d with
  | nil => intro k r _ hmem; simp at hmem
  | cons p rest ih =>
    intro k r hnd hmem
    rw [List.map_cons, List.nodup_cons] at hnd
    rcases List.mem_cons.mp hmem with h | h
    · subst h; simp [List.find?]
    · have hk : k ∈ rest.map Prod.fst := List.mem_map.mpr ⟨(k, r), h, rfl⟩
      have hne : ¬ ((fun q : K × V => decide (q.1 = k)) p = true) := by
        simp only [decide_eq_true_eq]
        intro he
        exact hnd.1 (he ▸ hk)
      rw [@List.find?_cons_of_neg _ (fun q : K × V => decide (q.1 = k)) p rest hne]
      exact ih k r hnd.2 h

theorem dictSet_keys_subset {K V : Type} [DecidableEq K] (d : List (K × V)) (k : K) (v : V) :
    ∀ k' ∈ (dictSet d k v).map Prod.fst, k' = k ∨ k' ∈ d.map Prod.fst := by
  intro k' hk'
  unfold dictSet at hk'
  by_cases hc : containsKey d k = true
  · rw [if_pos hc] at hk'
    rcases List.mem_map.mp hk' with ⟨q, hq, hqe⟩
    rcases List.mem_map.mp hq with ⟨p, hp, hpe⟩
    by_cases hpk : p.1 = k
    · left; rw [← hqe, ← hpe, if_pos hpk]
    · right; rw [← hqe, ← hpe, if_neg hpk]; exact List.mem_map.mpr ⟨p, hp, rfl⟩
  · rw [if_neg hc] at hk'
    rw [List.map_append] at hk'
    rcases List.mem_append.mp hk' with h | h
    · right; exact h
    · left; simpa using h

theorem dictGet?_mem_values {K V : Type} [DecidableEq K] (d : List (K × V)) (k : K) (v : V)
    (h : dictGet? d k = some v) : v ∈ d.map Prod.snd := by
  unfold dictGet? at h
  rcases Option.map_eq_some'.mp h with ⟨p, hp, hpe⟩
  exact List.mem_map.mpr ⟨p, List.mem_of_find?_eq_some hp, hpe⟩

/-! ### Claim theorems: lookup, missing identifier, frame, error paths -/

/-- C8: `get` returns the record stored under `cb_code` when the key is in
the table and `None` otherwise; being a total function of the table it
neither raises nor mutates (the guarded subscript is the only dict access
and the table is only read). -/
theorem spec_C8_lookup : ∀ (d : Dict) (k : String),
    ((d.map Prod.fst).Nodup → ∀ r, (k, r) ∈ d → CbetaMissingCharacter.get d k = some r) ∧
    ((∀ r, (k, r) ∉ d) → CbetaMissingCharacter.get d k = none) := by
  intro d k
  constructor
  · intro hnd r hmem
    have hc : containsKey d k = true := by
      simp only [containsKey, List.any_eq_true]
      exact ⟨(k, r), hmem, by simp⟩
    unfold CbetaMissingCharacter.get
    rw [if_pos hc]
    unfold dictGet?
    rw [find?_key_of_nodup d k r hnd hmem]
    rfl
  · intro habs
    cases hc : containsKey d k with
    | false => unfold CbetaMissingCharacter.get; rw [if_neg (by simp [hc])]
    | true =>
      exfalso
      simp only [containsKey, List.any_eq_true] at hc
      rcases hc with ⟨p, hp, hpk⟩
      have hpe : p = (k, p.2) := by
        have h1 : p.1 = k := by simpa using hpk
        exact Prod.ext h1 rfl
      exact habs p.2 (hpe ▸ hp)

/-- C8 witness at a concrete one-entry table. -/
theorem spec_C8_witness :
    (([("CB00006", [("normal", some "璩")])] : Dict).map Prod.fst).Nodup ∧
    ("CB00006", [("normal", (some "璩" : PyVal))]) ∈
      ([("CB00006", [("normal", some "璩")])] : Dict) ∧
    CbetaMissingCharacter.get [("CB00006", [("normal", some "璩")])] "CB00006"
      = some [("normal", some "璩")] ∧
    (∀ r, ("nonexistent", r) ∉ ([("CB00006", [("normal", some "璩")])] : Dict)) ∧
    CbetaMissingCharacter.get [("CB00006", [("normal", some "璩")])] "nonexistent" = none := by
  have habs : ∀ r, ("nonexistent", r) ∉ ([("CB00006", [("normal", some "璩")])] : Dict) := by
    intro r hr
    rcases List.mem_cons.mp hr with h | h
    · injection h with h1 _
      exact absurd h1 (by decide)
    · simp at h
  refine ⟨by decide, by decide, ?_, habs, ?_⟩
  · exact (spec_C8_lookup [("CB00006", [("normal", some "璩")])] "CB00006").1 (by decide)
      [("normal", some "璩")] (by decide)
  · exact (spec_C8_lookup [("CB00006", [("normal", some "璩")])] "nonexistent").2 habs

/-- C10: a character node without an `id` attribute makes `extract_char`
raise `KeyError` at its very first statement, before any `charProp` or
`mapping` child is read — whatever the children contain. -/
theorem spec_C10_missing_id : ∀ char : XElem, containsKey char.attrib "id" = false →
    extract_char char = .error (PyErr.keyError "id") := by
  intro char h
  have hg : dictGet? char.attrib "id" = none := (containsKey_false_iff _ _).mp h
  unfold extract_char
  rw [hg]

/-- C10 witness: a node with no `id` but with children that would themselves
raise other errors if they were ever read. -/
theorem spec_C10_witness :
    containsKey (XElem.mk "char" [("x", "1")] none
        (XElems.ofList [XElem.mk "mapping" [] (some "&#1;") XElems.nil])).attrib "id" = false ∧
    extract_char (XElem.mk "char" [("x", "1")] none
        (XElems.ofList [XElem.mk "mapping" [] (some "&#1;") XElems.nil])) =
      .error (PyErr.keyError "id") :=
  ⟨by decide, spec_C10_missing_id _ (by decide)⟩

/-- C7: a scan of a document with zero `charDecl/char` nodes leaves the
table exactly as it was.  For the source as written this holds because the
scan stops with `AttributeError` at the misspelled `doc.finall` before any
table assignment; the second conjunct shows that with the typo corrected to
`findall` the loop body never runs on such a document, so the table is
unchanged and no error is raised. -/
theorem spec_C7_frame : ∀ (fn : String) (doc : XDoc) (d : Dict),
    findall_charDecl_char doc.root = [] →
    (update_from_p5_file fn (.ok doc) d).missing_dict = d ∧
    (findall_charDecl_char (remove_namespace doc.root (nsArgOf doc)) = [] →
      (update_from_p5_file_findall fn (.ok doc) d).missing_dict = d ∧
      (update_from_p5_file_findall fn (.ok doc) d).raised = none) := by
  intro fn doc d _h
  constructor
  · rfl
  · intro h2
    simp only [update_from_p5_file_findall]
    rw [h2]
    exact ⟨rfl, rfl⟩

/-- C7 witness at a concrete document with no character declarations. -/
theorem spec_C7_witness :
    findall_charDecl_char (XDoc.mk (XElem.mk "TEI" [] none XElems.nil) none).root = [] ∧
    (update_from_p5_file "T02.xml"
      (.ok (XDoc.mk (XElem.mk "TEI" [] none XElems.nil) none))
      [("CB00001", [("normal", some "一")])]).missing_dict =
      [("CB00001", [("normal", some "一")])] :=
  ⟨rfl, (spec_C7_frame "T02.xml" (XDoc.mk (XElem.mk "TEI" [] none XElems.nil) none)
    [("CB00001", [("normal", some "一")])] rfl).1⟩

/-- C5 counterexample: a document that parses incorrectly (`XMLSyntaxError`
is not an `IOError`, so the `except IOError` clause does not catch it) is
re-raised to the caller with no error-level log entry — the claim that an
open-or-parse failure is "logged and re-raised" is false for the parse
half. -/
theorem spec_C5_counterexample :
    (update_from_p5_file "broken.xml" (.error PyErr.xmlSyntaxError) []).raised
        = some PyErr.xmlSyntaxError ∧
    (update_from_p5_file "broken.xml" (.error PyErr.xmlSyntaxError) []).log.any
        LogEvent.isError = false := by
  decide

/-- C5 amended: only an open failure (`IOError`) is logged before being
re-raised; a parse failure propagates with no error log entry; and the
open/parse failures are not the only propagating error path — every
successfully parsed document also raises (`AttributeError` at the
misspelled `doc.finall`). -/
theorem spec_C5_amended : ∀ (fn : String) (d : Dict) (e : PyErr),
    e = PyErr.ioError ∨ e = PyErr.xmlSyntaxError →
    ((update_from_p5_file fn (.error e) d).raised = some e ∧
     (update_from_p5_file fn (.error e) d).missing_dict = d ∧
     ((update_from_p5_file fn (.error e) d).log.any LogEvent.isError = true ↔
        e = PyErr.ioError)) ∧
    (∀ doc : XDoc, (update_from_p5_file fn (.ok doc) d).raised
        = some PyErr.attributeError) := by
  intro fn d e he
  constructor
  · rcases he with rfl | rfl
    · refine ⟨?_, ?_, ?_⟩ <;> simp [update_from_p5_file, LogEvent.isError]
    · refine ⟨?_, ?_, ?_⟩ <;> simp [update_from_p5_file, LogEvent.isError]
  · intro doc
    rfl

/-- C5 amended witness at the `IOError` input. -/
theorem spec_C5_witness :
    (PyErr.ioError = PyErr.ioError ∨ PyErr.ioError = PyErr.xmlSyntaxError) ∧
    (update_from_p5_file "doc.xml" (.error PyErr.ioError) []).raised = some PyErr.ioError :=
  ⟨Or.inl rfl, ((spec_C5_amended "doc.xml" [] PyErr.ioError (Or.inl rfl)).1).1⟩

/-- C6: evaluation of `update_from_p5_folder` at concrete inputs.  On an
existing folder containing one file, `os.walk` yields one `(dirpath,
dirnames, filenames)` triple and the loop's first statement
`os.path.join(folder, file)` raises `TypeError` before any document is
scanned; on a non-existent folder `os.walk` yields nothing and no file is
ever scanned.  In neither case is `update_from_p5_file` applied to any
file. -/
theorem spec_C6_eval :
    update_from_p5_folder "corpus" [("corpus", [], ["T01.xml"])] []
        = ([], some PyErr.typeError) ∧
    update_from_p5_folder "missing" [] [("CB00001", [("normal", some "一")])]
        = ([("CB00001", [("normal", some "一")])], none) := by
  decide

/-! ### Claim C1: end-to-end scan of the minimal document -/

/-- The minimal character declaration of the end-to-end example: id
`CB00006` (carried, as in a real P5 file, in the reserved `xml` namespace),
one property `normalized form = 璩` and one `unicode` mapping whose text
encodes code point 0x249B2 in the delimited form whose 2-character head and
1-character tail are stripped. -/
def c1CharNode : XElem :=
  .mk "char" [(XML_NS ++ "id", "CB00006")] none (XElems.ofList
    [.mk "charProp" [] none (XElems.ofList
      [.mk "localName" [] (some "normalized form") XElems.nil,
       .mk "value" [] (some "璩") XElems.nil]),
     .mk "mapping" [("type", "unicode")] (some "&#249B2;") XElems.nil])

/-- The minimal end-to-end document: one `charDecl` block holding the one
`char` node, no default namespace declared. -/
def c1Doc : XDoc :=
  { root := .mk "TEI" [] none (XElems.ofList
      [.mk "charDecl" [] none (XElems.ofList [c1CharNode])]),
    defaultNs := none }

/-- C1: the end-to-end claim fails on the code.  Scanning the minimal
document raises `AttributeError` (the source calls `doc.finall`, which is
not a method of an lxml tree — a typo for `findall`) and the table stays
empty; and even with the typo corrected the scan still raises, now
`ValueError` from `chr(int("249B2"))` — `int` without a base argument
rejects the hex digits — so the table never receives the claimed
`CB00006` record. -/
theorem spec_C1_eval :
    (update_from_p5_file "T01.xml" (.ok c1Doc) []).raised = some PyErr.attributeError ∧
    (update_from_p5_file "T01.xml" (.ok c1Doc) []).missing_dict = [] ∧
    (update_from_p5_file_findall "T01.xml" (.ok c1Doc) []).raised = some PyErr.valueError ∧
    CbetaMissingCharacter.get
      (update_from_p5_file_findall "T01.xml" (.ok c1Doc) []).missing_dict "CB00006" = none := by
  decide

/-! ### Claim C2: the `unicode` mapping extraction -/

/-- A character node with a `unicode` mapping whose stripped payload is the
hex string `0249B2` of the claim's round-trip example. -/
def c2NodeHex : XElem :=
  .mk "char" [("id", "CBX")] none
    (XElems.ofList [.mk "mapping" [("type", "unicode")] (some "&#0249B2;") XElems.nil])

/-- A character node whose stripped mapping payload `100` happens to be all
decimal digits, so the decimal `int` call succeeds — with the wrong value. -/
def c2NodeDec : XElem :=
  .mk "char" [("id", "CBY")] none
    (XElems.ofList [.mk "mapping" [("type", "unicode")] (some "&#100;") XElems.nil])

/-- C2: the claim's derived-field half fails on the code.  On the hex
payload `0249B2` the source's `chr(int(unicode))` raises `ValueError`
(`int` parses base 10, not 16); on an all-digit payload `100` extraction
succeeds but stores `chr(100) = "d"` rather than the character at code
point 0x100.  The last conjunct records that code point 0x249B2 is `𤦲` —
the very pair shown in the repository's own `get` docstring, which the
decimal reading can never produce. -/
theorem spec_C2_eval :
    extract_char c2NodeHex = .error PyErr.valueError ∧
    extract_char c2NodeDec = .ok [("unicode", some "100"), ("unicode-char", some "d")] ∧
    Char.toString (Char.ofNat 0x100) ≠ "d" ∧
    Char.toString (Char.ofNat 0x249B2) = "𤦲" := by
  decide


/-! ### Claim C3: the controlled key vocabulary of extracted records -/

theorem charPropStep_keys (res : Record) (el : XElem) (res' : Record)
    (h : charPropStep res el = .ok res') :
    ∀ k ∈ res'.map Prod.fst, k ∈ res.map Prod.fst ∨ k ∈ ALLOWED_KEYS := by
  unfold charPropStep at h
  cases h1 : textOfChild el "localName" with
  | error e => simp [h1] at h
  | ok local_name =>
    cases h2 : textOfChild el "value" with
    | error e => simp [h1, h2] at h
    | ok value =>
      cases local_name with
      | none =>
        simp only [h1, h2, Except.ok.injEq] at h
        subst h; exact fun k hk => Or.inl hk
      | some ln =>
        cases h3 : dictGet? FIELD_MAPPING ln with
        | none =>
          simp only [h1, h2, h3, Except.ok.injEq] at h
          subst h; exact fun k hk => Or.inl hk
        | some key =>
          simp only [h1, h2, h3, Except.ok.injEq] at h
          subst h
          intro k hk
          rcases dictSet_keys_subset res key value k hk with hke | hkr
          · subst hke
            refine Or.inr ?_
            unfold ALLOWED_KEYS
            exact List.mem_append.mpr (Or.inl (dictGet?_mem_values _ _ _ h3))
          · exact Or.inl hkr

theorem mappingStep_keys (res : Record) (el : XElem) (res' : Record)
    (h : mappingStep res el = .ok res') :
    ∀ k ∈ res'.map Prod.fst, k ∈ res.map Prod.fst ∨ k ∈ ALLOWED_KEYS := by
  unfold mappingStep at h
  cases h1 : dictGet? el.attrib "type" with
  | none => simp [h1] at h
  | some mapping_type =>
    by_cases h2 : mapping_type ∈ TYPE_TO_STORE
    · cases h3 : el.text with
      | none => simp [h1, h2, h3] at h
      | some txt =>
        by_cases h4 : mapping_type = "unicode"
        · subst h4
          cases h5 : pyInt? (pySlice2m1 txt) with
          | none => simp [h1, h2, h3, h5] at h
          | some n =>
            cases h6 : pyChr? n with
            | none => simp [h1, h2, h3, h5, h6] at h
            | some c =>
              simp only [h1, h2, h3, h5, h6, if_true, Except.ok.injEq] at h
              subst h
              intro k hk
              rcases dictSet_keys_subset _ "unicode-char" _ k hk with hke | hkr
              · subst hke; refine Or.inr ?_; unfold ALLOWED_KEYS; simp
              · rcases dictSet_keys_subset res "unicode" (some (pySlice2m1 txt)) k hkr with
                  hke2 | hkr2
                · subst hke2; refine Or.inr ?_; unfold ALLOWED_KEYS; simp
                · exact Or.inl hkr2
        · simp only [h1, h2, h3, if_true, if_neg h4, Except.ok.injEq] at h
          subst h
          intro k hk
          rcases dictSet_keys_subset res mapping_type (some (pySlice2m1 txt)) k hk with
            hke | hkr
          · subst hke
            refine Or.inr ?_
            unfold TYPE_TO_STORE at h2
            unfold ALLOWED_KEYS
            rcases List.mem_cons.mp h2 with h5 | h5
            · subst h5; simp
            · rcases List.mem_cons.mp h5 with h6 | h6
              · subst h6; simp
              · simp at h6
          · exact Or.inl hkr
    · simp only [h1, if_neg h2, Except.ok.injEq] at h
      subst h
      exact fun k hk => Or.inl hk

theorem foldExcept_keys (step : Record → XElem → Except PyErr Record)
    (hstep : ∀ r el r', step r el = .ok r' →
      ∀ k ∈ r'.map Prod.fst, k ∈ r.map Prod.fst ∨ k ∈ ALLOWED_KEYS) :
    ∀ (l : List XElem) (r r' : Record), foldExcept step r l = .ok r' →
      ∀ k ∈ r'.map Prod.fst, k ∈ r.map Prod.fst ∨ k ∈ ALLOWED_KEYS := by
  intro l
  induction l with
  | nil =>
    intro r r' h
    unfold foldExcept at h
    simp only [Except.ok.injEq] at h
    subst h
    exact fun k hk => Or.inl hk
  | cons a rest ih =>
    intro r r' h
    unfold foldExcept at h
    cases h1 : step r a with
    | error e => simp [h1] at h
    | ok r1 =>
      simp only [h1] at h
      intro k hk
      rcases ih r1 r' h k hk with hmem | hall
      · rcases hstep r a r1 h1 k hmem with hm2 | ha2
        · exact Or.inl hm2
        · exact Or.inr ha2
      · exact Or.inr hall

/-- C3: every key of a record returned by `extract_char` is a value of
`FIELD_MAPPING` or one of `normal_unicode`, `unicode`, `unicode-char` —
whatever property localNames or mapping types the node carries, unmapped
input can only be dropped, never stored under a new key. -/
theorem spec_C3_keys : ∀ (char : XElem) (res : Record), extract_char char = .ok res →
    ∀ k ∈ res.map Prod.fst, k ∈ ALLOWED_KEYS := by
  intro char res h
  unfold extract_char at h
  cases h0 : dictGet? char.attrib "id" with
  | none => simp [h0] at h
  | some cid =>
    simp only [h0] at h
    cases h1 : foldExcept charPropStep [] (childrenWithTag char "charProp") with
    | error e => simp [h1] at h
    | ok res1 =>
      simp only [h1] at h
      intro k hk
      rcases foldExcept_keys mappingStep mappingStep_keys _ res1 res h k hk with hm | ha
      · rcases foldExcept_keys charPropStep charPropStep_keys _ [] res1 h1 k hm with hm2 | ha2
        · simp at hm2
        · exact ha2
      · exact ha

/-- A concrete character node carrying a mapped `composition` property. -/
def c3Node : XElem :=
  .mk "char" [("id", "CB0001")] none (XElems.ofList
    [.mk "charProp" [] none (XElems.ofList
      [.mk "localName" [] (some "composition") XElems.nil,
       .mk "value" [] (some "[(王*巨)/木]") XElems.nil])])

/-- C3 witness: the concrete extraction succeeds and its one key `zzs` is
indeed in the controlled vocabulary. -/
theorem spec_C3_witness :
    extract_char c3Node = .ok [("zzs", some "[(王*巨)/木]")] ∧ "zzs" ∈ ALLOWED_KEYS :=
  ⟨by decide, spec_C3_keys c3Node [("zzs", some "[(王*巨)/木]")] (by decide) "zzs" (by decide)⟩

/-! ### Claim C9: the reverse index from zzs codes to identifiers -/

theorem dictSet_mem_cases {K V : Type} [DecidableEq K] (d : List (K × V)) (k : K) (v : V) :
    ∀ q ∈ dictSet d k v, q = (k, v) ∨ q ∈ d := by
  intro q hq
  unfold dictSet at hq
  by_cases hc : containsKey d k = true
  · rw [if_pos hc] at hq
    rcases List.mem_map.mp hq with ⟨p, hp, hpe⟩
    by_cases hpk : p.1 = k
    · left; rw [← hpe, if_pos hpk]
    · right; rw [← hpe, if_neg hpk]; exact hp
  · rw [if_neg hc] at hq
    rcases List.mem_append.mp hq with h | h
    · exact Or.inr h
    · left; simpa using h

theorem dictSet_mem_self {K V : Type} [DecidableEq K] (d : List (K × V)) (k : K) (v : V) :
    (k, v) ∈ dictSet d k v := by
  unfold dictSet
  by_cases hc : containsKey d k = true
  · rw [if_pos hc]
    simp only [containsKey, List.any_eq_true] at hc
    rcases hc with ⟨p, hp, hpk⟩
    refine List.mem_map.mpr ⟨p, hp, ?_⟩
    rw [if_pos (by simpa using hpk)]
  · rw [if_neg hc]
    exact List.mem_append.mpr (Or.inr (by simp))

theorem dictSet_mem_preserve {K V : Type} [DecidableEq K] (d : List (K × V)) (k : K) (v : V)
    (q : K × V) (hq : q ∈ d) (hne : q.1 ≠ k) : q ∈ dictSet d k v := by
  unfold dictSet
  by_cases hc : containsKey d k = true
  · rw [if_pos hc]
    refine List.mem_map.mpr ⟨q, hq, ?_⟩
    rw [if_neg hne]
  · rw [if_neg hc]
    exact List.mem_append.mpr (Or.inl hq)

theorem zzs_foldl_mem : ∀ (d : Dict) (acc : List (PyVal × String)) (zc : PyVal × String),
    zc ∈ d.foldl zzsStep acc →
    zc ∈ acc ∨ ∃ p ∈ d, dictGet? p.2 "zzs" = some zc.1 ∧ p.1 = zc.2 := by
  intro d
  induction d with
  | nil => intro acc zc h; exact Or.inl (by simpa using h)
  | cons q rest ih =>
    intro acc zc h
    rw [List.foldl_cons] at h
    rcases ih _ zc h with hacc | ⟨p, hp, hz, hk⟩
    · unfold zzsStep at hacc
      cases hg : dictGet? q.2 "zzs" with
      | none => rw [hg] at hacc; exact Or.inl hacc
      | some v =>
        rw [hg] at hacc
        rcases dictSet_mem_cases acc v q.1 zc hacc with he | hm
        · subst he
          exact Or.inr ⟨q, List.mem_cons_self q rest, hg, rfl⟩
        · exact Or.inl hm
    · exact Or.inr ⟨p, List.mem_cons_of_mem q hp, hz, hk⟩

theorem zzs_foldl_preserve : ∀ (d : Dict) (acc : List (PyVal × String)) (zc : PyVal × String),
    zc ∈ acc → (∀ q ∈ d, dictGet? q.2 "zzs" ≠ some zc.1) → zc ∈ d.foldl zzsStep acc := by
  intro d
  induction d with
  | nil => intro acc zc h _; simpa using h
  | cons q rest ih =>
    intro acc zc h hno
    rw [List.foldl_cons]
    apply ih
    · unfold zzsStep
      cases hg : dictGet? q.2 "zzs" with
      | none => exact h
      | some v =>
        refine dictSet_mem_preserve acc v q.1 zc h ?_
        intro he
        exact hno q (List.mem_cons_self q rest) (he ▸ hg)
    · intro p hp
      exact hno p (List.mem_cons_of_mem q hp)

theorem zzs_foldl_complete : ∀ (d : Dict) (acc : List (PyVal × String)),
    (d.map Prod.fst).Nodup →
    (∀ p ∈ d, ∀ q ∈ d, ∀ z : PyVal, dictGet? p.2 "zzs" = some z →
        dictGet? q.2 "zzs" = some z → p.1 = q.1) →
    ∀ p ∈ d, ∀ z : PyVal, dictGet? p.2 "zzs" = some z → (z, p.1) ∈ d.foldl zzsStep acc := by
  intro d
  induction d with
  | nil => intro acc _ _ p hp; exact absurd hp (by simp)
  | cons q rest ih =>
    intro acc hnd huniq p hp z hz
    rw [List.map_cons, List.nodup_cons] at hnd
    rw [List.foldl_cons]
    rcases List.mem_cons.mp hp with he | hm
    · subst he
      apply zzs_foldl_preserve
      · unfold zzsStep
        rw [hz]
        exact dictSet_mem_self acc z p.1
      · intro r hr hcontra
        have h1 : p.1 = r.1 :=
          huniq p (List.mem_cons_self p rest) r (List.mem_cons_of_mem p hr) z hz hcontra
        exact hnd.1 (h1 ▸ List.mem_map.mpr ⟨r, hr, rfl⟩)
    · exact ih (zzsStep acc q) hnd.2
        (fun a ha b hb z' hza hzb =>
          huniq a (List.mem_cons_of_mem q ha) b (List.mem_cons_of_mem q hb) z' hza hzb)
        p hm z hz

/-- C9: under the stated assumption that no two records claim the same
`zzs` value (and the dict invariant that table keys are unique), the
reverse index built by `create_zzs_code_lookup` contains the pair
`(zzs value, identifier)` for every record with a `zzs` field, and every
index entry comes from a record with that `zzs` field — records lacking
`zzs` contribute nothing. -/
theorem spec_C9_reverse_index : ∀ d : Dict,
    (d.map Prod.fst).Nodup →
    (∀ p ∈ d, ∀ q ∈ d, ∀ z : PyVal, dictGet? p.2 "zzs" = some z →
        dictGet? q.2 "zzs" = some z → p.1 = q.1) →
    (∀ p ∈ d, ∀ z : PyVal, dictGet? p.2 "zzs" = some z →
        (z, p.1) ∈ create_zzs_code_lookup d) ∧
    (∀ (z : PyVal) (c : String), (z, c) ∈ create_zzs_code_lookup d →
        ∃ r, (c, r) ∈ d ∧ dictGet? r "zzs" = some z) := by
  intro d hnd huniq
  constructor
  · intro p hp z hz
    exact zzs_foldl_complete d [] hnd huniq p hp z hz
  · intro z c h
    rcases zzs_foldl_mem d [] (z, c) h with habs | ⟨p, hp, hz, hk⟩
    · simp at habs
    · obtain ⟨p1, p2⟩ := p
      simp only at hz hk
      subst hk
      exact ⟨p2, hp, hz⟩

/-- A concrete one-record table carrying a `zzs` decomposition. -/
def c9Table : Dict := [("CB00006", [("zzs", some "[(王*巨)/木]")])]

/-- C9 witness: at the concrete table, the hypotheses hold and the reverse
index maps the decomposition string to `CB00006`. -/
theorem spec_C9_witness :
    (c9Table.map Prod.fst).Nodup ∧
    ((some "[(王*巨)/木]" : PyVal), "CB00006") ∈ create_zzs_code_lookup c9Table := by
  have huniq : ∀ p ∈ c9Table, ∀ q ∈ c9Table, ∀ z : PyVal, dictGet? p.2 "zzs" = some z →
      dictGet? q.2 "zzs" = some z → p.1 = q.1 := by
    intro p hp q hq z _ _
    rcases List.mem_cons.mp hp with h | h
    · rcases List.mem_cons.mp hq with h' | h'
      · rw [h, h']
      · exact absurd h' (by simp)
    · exact absurd h (by simp)
  refine ⟨by decide, ?_⟩
  exact (spec_C9_reverse_index c9Table (by decide) huniq).1
    ("CB00006", [("zzs", some "[(王*巨)/木]")]) (by decide) (some "[(王*巨)/木]") (by decide)

/-! ### Claim C4: what `remove_namespace` does to tags and attributes -/

/-- The reserved-namespace rename applied to one attribute name: strip the
hardcoded `\x7bhttp://www.w3.org/XML/1998/namespace\x7d` head when present. -/
def stripReserved (k : String) : String :=
  if strStartsWith k XML_NS then strDrop k XML_NS.length else k

/-- The intended per-entry effect of the attribute loop, restricted to the
keys `ks` the loop actually visits. -/
def stripEntry (ks : List String) (p : String × String) : String × String :=
  (if p.1 ∈ ks then stripReserved p.1 else p.1, p.2)

/-- No two attribute names of the dict land on the same name under the
reserved-namespace rename, and no renamed reserved attribute collides with
any existing attribute name.  Under this condition the attribute loop is a
pure per-entry rename. -/
abbrev noCollision (d : List (String × String)) : Prop :=
  (d.map (fun p => stripReserved p.1)).Nodup ∧
  ∀ p ∈ d, strStartsWith p.1 XML_NS = true → ∀ q ∈ d, q.1 ≠ stripReserved p.1

/-- Relation between an input node and its image under
`remove_namespace · "urn:test"`: the tag is stripped of the
`\x7burn:test\x7d` head, and the attributes are exactly the original ones
with reserved names renamed (as a dict, i.e. up to order). -/
def nsRel (a b : XElem) : Prop :=
  b.tag = stripTag "\x7burn:test\x7d" a.tag ∧
  b.attrib.Perm (a.attrib.map (fun p => (stripReserved p.1, p.2)))

theorem containsKey_iff_mem_keys {K V : Type} [DecidableEq K] (d : List (K × V)) (k : K) :
    containsKey d k = true ↔ k ∈ d.map Prod.fst := by
  simp [containsKey, List.any_eq_true]

theorem keys_filter_ne : ∀ (d : List (String × String)) (k : String),
    (d.filter (fun q => q.1 ≠ k)).map Prod.fst = (d.map Prod.fst).filter (fun x => x ≠ k) := by
  intro d k
  induction d with
  | nil => rfl
  | cons p rest ih =>
    rw [List.filter_cons, List.map_cons, List.filter_cons]
    by_cases hp : p.1 = k
    · rw [if_neg (by simp [hp]), if_neg (by simp [hp])]
      exact ih
    · rw [if_pos (by simp [hp]), if_pos (by simp [hp]), List.map_cons, ih]

theorem perm_cons_filter : ∀ (d : List (String × String)) (q : String × String) (k : String),
    (d.map Prod.fst).Nodup → q ∈ d → q.1 = k →
    d.Perm (q :: d.filter (fun x => x.1 ≠ k)) := by
  intro d
  induction d with
  | nil => intro q k _ hq; simp at hq
  | cons p rest ih =>
    intro q k hnd hq hk
    rw [List.map_cons, List.nodup_cons] at hnd
    rcases List.mem_cons.mp hq with he | hm
    · subst he
      rw [List.filter_cons, if_neg (by simp [hk])]
      have hrest : rest.filter (fun x => x.1 ≠ k) = rest := by
        refine List.filter_eq_self.mpr ?_
        intro x hx
        simp only [decide_eq_true_eq]
        intro hxk
        exact hnd.1 (hk ▸ hxk ▸ List.mem_map.mpr ⟨x, hx, rfl⟩)
      rw [hrest]
    · have hpk : p.1 ≠ k := by
        intro he
        exact hnd.1 (he ▸ hk ▸ List.mem_map.mpr ⟨q, hm, rfl⟩)
      rw [List.filter_cons, if_pos (by simp [hpk])]
      have hr := ih q k hnd.2 hm hk
      exact (hr.cons p).trans (List.Perm.swap q p _)

theorem stripAttrsGo_perm : ∀ (ks : List String) (d : List (String × String)),
    (d.map Prod.fst).Nodup →
    ks.Nodup →
    (∀ k ∈ ks, k ∈ d.map Prod.fst) →
    ((d.map (stripEntry ks)).map Prod.fst).Nodup →
    (∀ p ∈ d, p.1 ∈ ks → strStartsWith p.1 XML_NS = true →
        ∀ q ∈ d, q.1 ≠ stripReserved p.1) →
    (stripAttrsGo ks d).Perm (d.map (stripEntry ks)) := by
  intro ks
  induction ks with
  | nil =>
    intro d _ _ _ _ _
    have hmap : d.map (stripEntry []) = d := by
      have h1 : d.map (stripEntry []) = d.map id :=
        List.map_congr_left (fun p _ => by simp [stripEntry])
      rw [h1, List.map_id]
    rw [hmap]
    exact List.Perm.refl _
  | cons k ks ih =>
    intro d hnd hksnd hsub hstrip hres
    rw [List.nodup_cons] at hksnd
    by_cases hk : strStartsWith k XML_NS = true
    · -- a reserved key: pop it and re-insert under the stripped name
      have hkmem : k ∈ d.map Prod.fst := hsub k (List.mem_cons_self k ks)
      have hfs : (d.find? (fun p => p.1 = k)).isSome := by
        rcases List.mem_map.mp hkmem with ⟨p, hp, hpe⟩
        exact List.find?_isSome.mpr ⟨p, hp, by simp [hpe]⟩
      obtain ⟨q₀, hfind⟩ := Option.isSome_iff_exists.mp hfs
      have hq₀d : q₀ ∈ d := List.mem_of_find?_eq_some hfind
      have hq₀k : q₀.1 = k := by simpa using List.find?_some hfind
      have hstripk : stripReserved k = strDrop k XML_NS.length := by
        unfold stripReserved; rw [if_pos hk]
      have hk'notin : strDrop k XML_NS.length ∉ d.map Prod.fst := by
        intro hmem
        rcases List.mem_map.mp hmem with ⟨q, hq, hqe⟩
        refine hres q₀ hq₀d ?_ ?_ q hq ?_
        · rw [hq₀k]; exact List.mem_cons_self k ks
        · rw [hq₀k]; exact hk
        · rw [hqe, hq₀k, hstripk]
      have hk'notfil :
          strDrop k XML_NS.length ∉ (d.filter (fun q => q.1 ≠ k)).map Prod.fst := by
        rw [keys_filter_ne]
        intro hmem
        exact hk'notin (List.mem_of_mem_filter hmem)
      have hcontains : containsKey (d.filter (fun q => q.1 ≠ k)) (strDrop k XML_NS.length)
          = false := by
        cases hb : containsKey (d.filter (fun q => q.1 ≠ k)) (strDrop k XML_NS.length) with
        | false => rfl
        | true => exact absurd ((containsKey_iff_mem_keys _ _).mp hb) hk'notfil
      have hd₁ : dictSet (d.filter (fun q => q.1 ≠ k)) (strDrop k XML_NS.length) q₀.2
          = d.filter (fun q => q.1 ≠ k) ++ [(strDrop k XML_NS.length, q₀.2)] := by
        unfold dictSet
        rw [hcontains]
        simp
      have hgo : stripAttrsGo (k :: ks) d
          = stripAttrsGo ks (d.filter (fun q => q.1 ≠ k)
              ++ [(strDrop k XML_NS.length, q₀.2)]) := by
        simp only [stripAttrsGo, hk, if_true, hfind, hd₁]
      -- the key permutation between the two per-entry views
      have hperm0 : d.Perm (q₀ :: d.filter (fun x => x.1 ≠ k)) :=
        perm_cons_filter d q₀ k hnd hq₀d hq₀k
      have hq₀mem : q₀.1 ∈ k :: ks := by rw [hq₀k]; exact List.mem_cons_self k ks
      have hq₀se : stripEntry (k :: ks) q₀ = (strDrop k XML_NS.length, q₀.2) := by
        unfold stripEntry
        rw [if_pos hq₀mem, hq₀k, hstripk]
      have hfil_congr : (d.filter (fun q => q.1 ≠ k)).map (stripEntry (k :: ks))
          = (d.filter (fun q => q.1 ≠ k)).map (stripEntry ks) := by
        refine List.map_congr_left ?_
        intro p hp
        have hpk : p.1 ≠ k := by simpa using (List.mem_filter.mp hp).2
        unfold stripEntry
        by_cases hpm : p.1 ∈ ks
        · rw [if_pos (List.mem_cons_of_mem k hpm), if_pos hpm]
        · rw [if_neg (by simp [hpk, hpm]), if_neg hpm]
      have hk'se : stripEntry ks (strDrop k XML_NS.length, q₀.2)
          = (strDrop k XML_NS.length, q₀.2) := by
        unfold stripEntry
        rw [if_neg (fun hmem => hk'notin (hsub _ (List.mem_cons_of_mem k hmem)))]
      have hpermMaps : (d.map (stripEntry (k :: ks))).Perm
          ((d.filter (fun q => q.1 ≠ k) ++ [(strDrop k XML_NS.length, q₀.2)]).map
            (stripEntry ks)) := by
        refine (hperm0.map (stripEntry (k :: ks))).trans ?_
        rw [List.map_cons, hq₀se, hfil_congr, List.map_append, List.map_singleton, hk'se]
        exact (List.perm_append_singleton _ _).symm
      -- hypotheses of the induction at the popped-and-reinserted dict
      have hinj : ∀ a ∈ d, ∀ b ∈ d,
          (stripEntry (k :: ks) a).1 = (stripEntry (k :: ks) b).1 → a = b := by
        have h1 : (d.map fun p => (stripEntry (k :: ks) p).1).Nodup := by
          have h2 := hstrip
          rw [List.map_map] at h2
          exact h2
        exact fun a ha b hb hab => List.inj_on_of_nodup_map h1 ha hb hab
      have hnd₁ : ((d.filter (fun q => q.1 ≠ k)
          ++ [(strDrop k XML_NS.length, q₀.2)]).map Prod.fst).Nodup := by
        rw [List.map_append, List.map_singleton]
        refine List.Nodup.append ?_ (by simp) ?_
        · rw [keys_filter_ne]
          exact List.Nodup.filter _ hnd
        · intro x hx hy
          rw [List.mem_singleton] at hy
          subst hy
          exact hk'notfil hx
      have hsub₁ : ∀ x ∈ ks, x ∈ (d.filter (fun q => q.1 ≠ k)
          ++ [(strDrop k XML_NS.length, q₀.2)]).map Prod.fst := by
        intro x hx
        have hxk : x ≠ k := fun he => hksnd.1 (he ▸ hx)
        have hxd : x ∈ d.map Prod.fst := hsub x (List.mem_cons_of_mem k hx)
        rw [List.map_append, List.map_singleton]
        refine List.mem_append.mpr (Or.inl ?_)
        rw [keys_filter_ne]
        exact List.mem_filter.mpr ⟨hxd, by simp [hxk]⟩
      have hstrip₁ : (((d.filter (fun q => q.1 ≠ k)
          ++ [(strDrop k XML_NS.length, q₀.2)]).map (stripEntry ks)).map Prod.fst).Nodup :=
        List.Perm.nodup (hpermMaps.map Prod.fst) hstrip
      have hres₁ : ∀ p ∈ (d.filter (fun q => q.1 ≠ k)
            ++ [(strDrop k XML_NS.length, q₀.2)]),
          p.1 ∈ ks → strStartsWith p.1 XML_NS = true →
          ∀ q ∈ (d.filter (fun q => q.1 ≠ k) ++ [(strDrop k XML_NS.length, q₀.2)]),
            q.1 ≠ stripReserved p.1 := by
        intro p hp hpks hpsw q hq
        rcases List.mem_append.mp hp with hpf | hpe
        · have hpd : p ∈ d := List.mem_of_mem_filter hpf
          have hpk : p.1 ≠ k := by simpa using (List.mem_filter.mp hpf).2
          rcases List.mem_append.mp hq with hqf | hqe
          · exact hres p hpd (List.mem_cons_of_mem k hpks) hpsw q
              (List.mem_of_mem_filter hqf)
          · rw [List.mem_singleton] at hqe
            subst hqe
            simp only
            intro he
            -- the stripped name of p would equal the stripped name of k
            have hfp : (stripEntry (k :: ks) p).1 = (stripEntry (k :: ks) q₀).1 := by
              rw [hq₀se]
              unfold stripEntry
              rw [if_pos (List.mem_cons_of_mem k hpks)]
              exact he.symm
            have := hinj p hpd q₀ hq₀d hfp
            exact hpk (by rw [this, hq₀k])
        · rw [List.mem_singleton] at hpe
          subst hpe
          exact absurd hpks (fun hmem => hk'notin (hsub _ (List.mem_cons_of_mem k hmem)))
      rw [hgo]
      exact (ih _ hnd₁ hksnd.2 hsub₁ hstrip₁ hres₁).trans hpermMaps.symm
    · -- a non-reserved key: the loop does nothing for it
      have hkf : strStartsWith k XML_NS = false := by
        cases hb : strStartsWith k XML_NS with
        | false => rfl
        | true => exact absurd hb hk
      have hgo : stripAttrsGo (k :: ks) d = stripAttrsGo ks d := by
        simp only [stripAttrsGo, hkf, Bool.false_eq_true, if_false]
      have hmapeq : d.map (stripEntry (k :: ks)) = d.map (stripEntry ks) := by
        refine List.map_congr_left ?_
        intro p hp
        unfold stripEntry
        by_cases hpk : p.1 = k
        · have hnotk : p.1 ∉ ks := fun hmem => hksnd.1 (hpk ▸ hmem)
          rw [if_pos (by rw [hpk]; exact List.mem_cons_self k ks), if_neg hnotk, hpk]
          unfold stripReserved
          rw [if_neg hk]
        · by_cases hpm : p.1 ∈ ks
          · rw [if_pos (List.mem_cons_of_mem k hpm), if_pos hpm]
          · rw [if_neg (by simp [hpk, hpm]), if_neg hpm]
      rw [hgo, hmapeq]
      refine ih d hnd hksnd.2 (fun x hx => hsub x (List.mem_cons_of_mem k hx)) ?_ ?_
      · rw [← hmapeq]; exact hstrip
      · exact fun p hp hpks hpsw q hq =>
          hres p hp (List.mem_cons_of_mem k hpks) hpsw q hq

/-- Under `noCollision`, the whole attribute loop is, as a dict, exactly
the per-entry reserved-namespace rename. -/
theorem stripAttrs_perm (d : List (String × String)) (h : noCollision d) :
    (stripAttrs d).Perm (d.map (fun p => (stripReserved p.1, p.2))) := by
  have h1 : ((d.map Prod.fst).map stripReserved).Nodup := by
    rw [List.map_map]
    exact h.1
  have hkeys : (d.map Prod.fst).Nodup := List.Nodup.of_map _ h1
  have hmap : d.map (stripEntry (d.map Prod.fst)) = d.map (fun p => (stripReserved p.1, p.2)) :=
    List.map_congr_left (by
      intro p hp
      unfold stripEntry
      rw [if_pos (List.mem_map.mpr ⟨p, hp, rfl⟩)])
  have hstrip : ((d.map (stripEntry (d.map Prod.fst))).map Prod.fst).Nodup := by
    rw [hmap, List.map_map]
    exact h.1
  have := stripAttrsGo_perm (d.map Prod.fst) d hkeys hkeys (fun k hk => hk) hstrip
    (fun p hp _ hsw q hq => h.2 p hp hsw q hq)
  rw [hmap] at this
  exact this

mutual
theorem sizeOf_le_of_mem_allNodes : ∀ (e : XElem) (c : XElem),
    c ∈ allNodes e → sizeOf c ≤ sizeOf e
  | .mk t a x cs, c, h => by
    rw [allNodes] at h
    rcases List.mem_cons.mp h with h | h
    · subst h; exact le_refl _
    · have h1 := sizeOf_le_of_mem_allNodesList cs c h
      have hs : sizeOf (XElem.mk t a x cs)
          = 1 + sizeOf t + sizeOf a + sizeOf x + sizeOf cs := by simp
      omega
theorem sizeOf_le_of_mem_allNodesList : ∀ (cs : XElems) (c : XElem),
    c ∈ allNodesList cs → sizeOf c ≤ sizeOf cs
  | .nil, c, h => by rw [allNodesList] at h; simp at h
  | .cons e es, c, h => by
    rw [allNodesList] at h
    rcases List.mem_append.mp h with h | h
    · have h1 := sizeOf_le_of_mem_allNodes e c h
      have hs : sizeOf (XElems.cons e es) = 1 + sizeOf e + sizeOf es := by simp
      omega
    · have h1 := sizeOf_le_of_mem_allNodesList es c h
      have hs : sizeOf (XElems.cons e es) = 1 + sizeOf e + sizeOf es := by simp
      omega
end

/-- Strong induction over element trees: to prove `P` everywhere it is
enough to prove it at each node assuming it on all of the node's
descendants. -/
theorem XElem.ind (P : XElem → Prop)
    (h : ∀ t a x cs, (∀ c ∈ allNodesList cs, P c) → P (.mk t a x cs)) : ∀ e, P e := by
  have key : ∀ n : Nat, ∀ e : XElem, sizeOf e ≤ n → P e := by
    intro n
    induction n with
    | zero =>
      intro e he
      exfalso
      cases e with
      | mk t a x cs =>
        have hs : sizeOf (XElem.mk t a x cs)
            = 1 + sizeOf t + sizeOf a + sizeOf x + sizeOf cs := by simp
        omega
    | succ n ih =>
      intro e he
      cases e with
      | mk t a x cs =>
        refine h t a x cs ?_
        intro c hc
        refine ih c ?_
        have h1 := sizeOf_le_of_mem_allNodesList cs c hc
        have hs : sizeOf (XElem.mk t a x cs)
            = 1 + sizeOf t + sizeOf a + sizeOf x + sizeOf cs := by simp
        omega
  exact fun e => key (sizeOf e) e le_rfl

theorem self_mem_allNodes : ∀ e : XElem, e ∈ allNodes e := by
  intro e
  cases e with
  | mk t a x cs =>
    rw [allNodes]
    exact List.mem_cons_self _ _

theorem mem_allNodesList_of_mem_toList : ∀ (cs : XElems) (c : XElem),
    c ∈ cs.toList → c ∈ allNodesList cs
  | .nil, c, h => by rw [XElems.toList] at h; simp at h
  | .cons e es, c, h => by
    rw [XElems.toList] at h
    rw [allNodesList]
    rcases List.mem_cons.mp h with he | hm
    · subst he
      exact List.mem_append.mpr (Or.inl (self_mem_allNodes c))
    · exact List.mem_append.mpr (Or.inr (mem_allNodesList_of_mem_toList es c hm))

theorem mem_allNodesList_trans : ∀ (cs : XElems) (c n : XElem),
    c ∈ cs.toList → n ∈ allNodes c → n ∈ allNodesList cs
  | .nil, c, n, h, _ => by rw [XElems.toList] at h; simp at h
  | .cons e es, c, n, h, hn => by
    rw [XElems.toList] at h
    rw [allNodesList]
    rcases List.mem_cons.mp h with he | hm
    · subst he
      exact List.mem_append.mpr (Or.inl hn)
    · exact List.mem_append.mpr (Or.inr (mem_allNodesList_trans es c n hm hn))

theorem remove_namespace_urn_test (e : XElem) :
    remove_namespace e "urn:test" = removeNsElem "\x7burn:test\x7d" e := by
  unfold remove_namespace
  have h : "\x7b" ++ "urn:test" ++ "\x7d" = "\x7burn:test\x7d" := by decide
  rw [h]

theorem forall₂_removeNs_list : ∀ cs : XElems,
    (∀ c ∈ cs.toList, List.Forall₂ nsRel (allNodes c)
        (allNodes (removeNsElem "\x7burn:test\x7d" c))) →
    List.Forall₂ nsRel (allNodesList cs)
      (allNodesList (removeNsList "\x7burn:test\x7d" cs))
  | .nil, _ => by
    simp only [allNodesList, removeNsList]
    exact List.Forall₂.nil
  | .cons e es, h => by
    simp only [allNodesList, removeNsList]
    refine List.rel_append (h e ?_) (forall₂_removeNs_list es ?_)
    · rw [XElems.toList]; exact List.mem_cons_self _ _
    · intro c hc
      exact h c (by rw [XElems.toList]; exact List.mem_cons_of_mem e hc)

/-- C4 amended: provided no node's attributes collide under the
reserved-namespace rename (no attribute name equal to the stripped name of
a reserved one, no two names stripping to the same name),
`remove_namespace` with namespace URI `urn:test` rewrites every node's tag
of the form `\x7burn:test\x7dX` to `X`, leaves other tags unchanged, and —
as a dict — replaces each node's attributes by exactly the original ones
with every reserved name `\x7b...namespace\x7dX` renamed to `X`, values
preserved and all other attributes untouched.  (Without the proviso, the
renamed reserved attribute silently overwrites a plain attribute of the
same name: see the counterexample.) -/
theorem spec_C4_amended : ∀ e : XElem,
    (∀ n ∈ allNodes e, noCollision n.attrib) →
    List.Forall₂ nsRel (allNodes e) (allNodes (remove_namespace e "urn:test")) := by
  intro e
  refine XElem.ind
    (fun e => (∀ n ∈ allNodes e, noCollision n.attrib) →
      List.Forall₂ nsRel (allNodes e) (allNodes (remove_namespace e "urn:test")))
    ?_ e
  intro t a x cs ih hnc
  rw [remove_namespace_urn_test]
  rw [show removeNsElem "\x7burn:test\x7d" (XElem.mk t a x cs)
      = XElem.mk (stripTag "\x7burn:test\x7d" t) (stripAttrs a) x
          (removeNsList "\x7burn:test\x7d" cs) from by rw [removeNsElem]]
  rw [allNodes, allNodes]
  refine List.Forall₂.cons ⟨rfl, ?_⟩ ?_
  · have h0 := hnc (XElem.mk t a x cs) (by rw [allNodes]; exact List.mem_cons_self _ _)
    exact stripAttrs_perm a h0
  · refine forall₂_removeNs_list cs ?_
    intro c hc
    have hsub : ∀ n ∈ allNodes c, noCollision n.attrib := by
      intro n hn
      refine hnc n ?_
      rw [allNodes]
      exact List.mem_cons_of_mem _ (mem_allNodesList_trans cs c n hc hn)
    have hthis := ih c (mem_allNodesList_of_mem_toList cs c hc) hsub
    rwa [remove_namespace_urn_test] at hthis

/-- A node carrying both a plain `id` attribute and a reserved
`xml:id` attribute. -/
def c4Node : XElem := .mk "char" [("id", "a"), (XML_NS ++ "id", "b")] none XElems.nil

/-- C4 counterexample: the claim's "attributes without the reserved prefix
are unchanged" fails.  On a node with both `id="a"` and the reserved
`xml:id="b"`, the rename pops the reserved attribute and assigns its value
under the bare name `id`, overwriting the untouched plain attribute: the
result carries `id="b"`, not `id="a"`. -/
theorem spec_C4_counterexample :
    ("id", "a") ∈ c4Node.attrib ∧
    strStartsWith "id" XML_NS = false ∧
    (remove_namespace c4Node "urn:test").attrib = [("id", "b")] := by
  decide

/-- A two-level tree with a namespaced tag, a reserved `xml:id` attribute
and a plain attribute, collision-free. -/
def c4Good : XElem :=
  .mk "\x7burn:test\x7dcharDecl" [] none (XElems.ofList
    [.mk "\x7burn:test\x7dchar" [(XML_NS ++ "id", "CB00006"), ("n", "1")] none XElems.nil])

/-- C4 amended witness at a concrete collision-free document. -/
theorem spec_C4_witness :
    (∀ n ∈ allNodes c4Good, noCollision n.attrib) ∧
    List.Forall₂ nsRel (allNodes c4Good) (allNodes (remove_namespace c4Good "urn:test")) :=
  ⟨by decide, spec_C4_amended c4Good (by decide)⟩
